import Mathlib

/-!
Shallow embedding of the collaborative-canvas server state machines.

Sources:
- `DrawingStateManager` (history / undo-redo coordinator) from
  `src/server/server.js` (the drawing-state module bundled with it).
- `RoomManager` (session registry, color assignment) from `src/server/rooms.js`.
- The socket connection handler (join sequence) from `src/server/server.js`.

JavaScript arrays used as stacks (push/pop at the end, shift at the front)
are modelled as Lean lists with push as append of a singleton, pop as
`getLast?`/`dropLast`, and shift as `tail`.  `Math.random()`-derived values
and `Date.now()` timestamps are explicit inputs.
-/

/-- One history entry: `addAction` stores the committed action spread together
with a `timestamp: Date.now()` field. -/
structure HistEntry (α : Type) where
  action : α
  timestamp : Nat
deriving DecidableEq

/-- The state of `DrawingStateManager`: `this.history` and `this.redoStack`. -/
structure DrawingState (α : Type) where
  history : List (HistEntry α)
  redoStack : List (HistEntry α)
deriving DecidableEq

/-- `this.maxHistorySize = 100`. -/
def maxHistorySize : Nat := 100

/-- The constructor state: both stacks empty. -/
def initDrawingState (α : Type) : DrawingState α :=
  { history := [], redoStack := [] }

/-- `addAction(action)`: push `{...action, timestamp}` onto `history`, set
`redoStack = []`, then if `history.length > maxHistorySize` shift off the
oldest entry. -/
def addAction {α : Type} (s : DrawingState α) (action : α) (now : Nat) : DrawingState α :=
  let history := s.history ++ [{ action := action, timestamp := now }]
  let redoStack : List (HistEntry α) := []
  if history.length > maxHistorySize then
    { history := history.tail, redoStack := redoStack }
  else
    { history := history, redoStack := redoStack }

/-- `undo()`: if `history` is empty return `null`; otherwise pop the last
history entry, push it onto `redoStack`, and return it. -/
def undo {α : Type} (s : DrawingState α) : Option (HistEntry α) × DrawingState α :=
  match s.history.getLast? with
  | none => (none, s)
  | some action =>
      (some action,
       { history := s.history.dropLast, redoStack := s.redoStack ++ [action] })

/-- `redo()`: if `redoStack` is empty return `null`; otherwise pop the last
redo entry, push it back onto `history`, and return it. -/
def redo {α : Type} (s : DrawingState α) : Option (HistEntry α) × DrawingState α :=
  match s.redoStack.getLast? with
  | none => (none, s)
  | some action =>
      (some action,
       { history := s.history ++ [action], redoStack := s.redoStack.dropLast })

/-- `clearHistory()`: empty both stacks. -/
def clearHistory {α : Type} (_s : DrawingState α) : DrawingState α :=
  { history := [], redoStack := [] }

/-- `getHistoryLength()`. -/
def getHistoryLength {α : Type} (s : DrawingState α) : Nat :=
  s.history.length

/-- `getRedoLength()`. -/
def getRedoLength {α : Type} (s : DrawingState α) : Nat :=
  s.redoStack.length

/-- States of `DrawingStateManager` reachable from the constructor state by
any sequence of `addAction`, `undo`, `redo`, `clearHistory` calls. -/
inductive DSReachable {α : Type} : DrawingState α → Prop
  | init : DSReachable (initDrawingState α)
  | add (s : DrawingState α) (a : α) (now : Nat) :
      DSReachable s → DSReachable (addAction s a now)
  | undoStep (s : DrawingState α) : DSReachable s → DSReachable (undo s).2
  | redoStep (s : DrawingState α) : DSReachable s → DSReachable (redo s).2
  | clearStep (s : DrawingState α) : DSReachable s → DSReachable (clearHistory s)

section DrawingLemmas

variable {α : Type}

lemma addAction_of_lt (s : DrawingState α) (a : α) (ts : Nat)
    (h : s.history.length < 100) :
    addAction s a ts =
      { history := s.history ++ [{ action := a, timestamp := ts }], redoStack := [] } := by
  unfold addAction
  rw [if_neg]
  simp only [maxHistorySize, List.length_append, List.length_cons, List.length_nil]
  omega

lemma addAction_of_ge (s : DrawingState α) (a : α) (ts : Nat)
    (h : 100 ≤ s.history.length) :
    addAction s a ts =
      { history := (s.history ++ [({ action := a, timestamp := ts } : HistEntry α)]).tail,
        redoStack := [] } := by
  unfold addAction
  rw [if_pos]
  simp only [maxHistorySize, List.length_append, List.length_cons, List.length_nil]
  omega

lemma addAction_history_of_eq (s : DrawingState α) (a : α) (ts : Nat)
    (h : s.history.length = 100) :
    (addAction s a ts).history = s.history.tail ++ [{ action := a, timestamp := ts }] := by
  rw [addAction_of_ge s a ts (by omega)]
  obtain ⟨hist, r⟩ := s
  simp only at h
  cases hist with
  | nil => simp at h
  | cons hd tl => rfl

lemma addAction_redoStack_eq (s : DrawingState α) (a : α) (ts : Nat) :
    (addAction s a ts).redoStack = [] := by
  rcases Nat.lt_or_ge s.history.length 100 with hlt | hge
  · rw [addAction_of_lt s a ts hlt]
  · rw [addAction_of_ge s a ts hge]

lemma addAction_length (s : DrawingState α) (a : α) (ts : Nat)
    (h : s.history.length ≤ 100) :
    (addAction s a ts).history.length = min (s.history.length + 1) 100 := by
  rcases Nat.lt_or_ge s.history.length 100 with hlt | hge
  · rw [addAction_of_lt s a ts hlt]
    simp only [List.length_append, List.length_cons, List.length_nil]
    omega
  · have heq : s.history.length = 100 := le_antisymm h hge
    rw [addAction_history_of_eq s a ts heq]
    simp only [List.length_append, List.length_tail, List.length_cons, List.length_nil]
    omega

lemma undo_of_ne_nil (l : List (HistEntry α)) (e : HistEntry α) (r : List (HistEntry α)) :
    undo { history := l ++ [e], redoStack := r } =
      (some e, { history := l, redoStack := r ++ [e] }) := by
  unfold undo
  simp only [List.getLast?_concat, List.dropLast_concat]

lemma redo_of_ne_nil (h : List (HistEntry α)) (r : List (HistEntry α)) (e : HistEntry α) :
    redo { history := h, redoStack := r ++ [e] } =
      (some e, { history := h ++ [e], redoStack := r }) := by
  unfold redo
  simp only [List.getLast?_concat, List.dropLast_concat]

lemma undo_of_nil (r : List (HistEntry α)) :
    undo { history := ([] : List (HistEntry α)), redoStack := r } =
      (none, { history := [], redoStack := r }) := rfl

lemma redo_of_nil (h : List (HistEntry α)) :
    redo { history := h, redoStack := ([] : List (HistEntry α)) } =
      (none, { history := h, redoStack := [] }) := rfl

lemma undo_sum (t : DrawingState α) :
    (undo t).2.history.length + (undo t).2.redoStack.length
      = t.history.length + t.redoStack.length := by
  obtain ⟨h, r⟩ := t
  rcases List.eq_nil_or_concat' h with rfl | ⟨l, e, rfl⟩
  · rfl
  · rw [undo_of_ne_nil]
    simp only [List.length_append, List.length_cons, List.length_nil]
    omega

lemma redo_sum (t : DrawingState α) :
    (redo t).2.history.length + (redo t).2.redoStack.length
      = t.history.length + t.redoStack.length := by
  obtain ⟨h, r⟩ := t
  rcases List.eq_nil_or_concat' r with rfl | ⟨l, e, rfl⟩
  · rfl
  · rw [redo_of_ne_nil]
    simp only [List.length_append, List.length_cons, List.length_nil]
    omega

lemma dsreachable_sum_le (s : DrawingState α) (h : DSReachable s) :
    s.history.length + s.redoStack.length ≤ 100 := by
  induction h with
  | init => simp [initDrawingState]
  | add s a now _ ih =>
      rw [addAction_redoStack_eq]
      have hle : s.history.length ≤ 100 := by omega
      rw [addAction_length s a now hle]
      simp only [List.length_nil]
      omega
  | undoStep s _ ih => rw [undo_sum]; exact ih
  | redoStep s _ ih => rw [redo_sum]; exact ih
  | clearStep s _ _ => simp [clearHistory]

end DrawingLemmas

/-- Concrete 100-entry history used to exercise the eviction branch. -/
def hist100 : List (HistEntry Nat) :=
  (List.range 100).map (fun i => { action := i, timestamp := i })

/-- C1: after any commit (`addAction`) from a state whose history respects the
size bound, the history length equals `min (priorLength + 1) 100` and stays
within the bound; when the prior length was exactly 100 the new history is the
prior history minus its oldest (head) entry, in order, followed by the new
entry, so a head entry occurring nowhere else in the prior history and
distinct from the new entry is absent afterward; below the bound the history
is simply extended.  The size-bound hypothesis is satisfied by every state
the manager can reach (final conjunct), so this covers all sequences of
commits. -/
theorem addAction_history_bound {α : Type} (s : DrawingState α) (a : α) (ts : Nat)
    (h : s.history.length ≤ 100) :
    (addAction s a ts).history.length = min (s.history.length + 1) 100 ∧
    (addAction s a ts).history.length ≤ 100 ∧
    (s.history.length = 100 →
      (addAction s a ts).history =
        s.history.tail ++ [{ action := a, timestamp := ts }]) ∧
    (s.history.length < 100 →
      (addAction s a ts).history = s.history ++ [{ action := a, timestamp := ts }]) ∧
    (∀ e : HistEntry α, s.history.length = 100 → s.history.head? = some e →
      e ∉ s.history.tail → e ≠ { action := a, timestamp := ts } →
      e ∉ (addAction s a ts).history) ∧
    (∀ t : DrawingState α, DSReachable t → t.history.length ≤ 100) := by
  refine ⟨addAction_length s a ts h, ?_, addAction_history_of_eq s a ts, ?_, ?_, ?_⟩
  · rw [addAction_length s a ts h]
    omega
  · intro hlt
    rw [addAction_of_lt s a ts hlt]
  · intro e h100 _ hnotail hne
    rw [addAction_history_of_eq s a ts h100]
    simp only [List.mem_append, List.mem_singleton]
    rintro (hc | hc)
    · exact hnotail hc
    · exact hne hc
  · intro t ht
    have := dsreachable_sum_le t ht
    omega

/-- C1 witness: commit onto a concrete full (100-entry) history. -/
theorem addAction_history_bound_witness :
    (addAction { history := hist100, redoStack := [] } (5 : Nat) 7).history.length
        = min (hist100.length + 1) 100 ∧
    ({ action := 0, timestamp := 0 } : HistEntry Nat) ∉
      (addAction { history := hist100, redoStack := [] } (5 : Nat) 7).history := by
  have h := addAction_history_bound
    ({ history := hist100, redoStack := [] } : DrawingState Nat) 5 7 (by decide)
  exact ⟨h.1, h.2.2.2.2.1 _ (by decide) (by decide) (by decide) (by decide)⟩

/-- C2: a commit (`addAction`) leaves the redo stack empty, whatever the prior
contents of history and redo stack were. -/
theorem addAction_clears_redoStack {α : Type} (s : DrawingState α) (a : α) (ts : Nat) :
    (addAction s a ts).redoStack = [] :=
  addAction_redoStack_eq s a ts

/-- C3: from any state with non-empty history, `undo` returns an action
(`isSome`), the following `redo` returns the same action, and the state after
`undo` then `redo` is exactly the starting state. -/
theorem undo_redo_roundtrip {α : Type} (s : DrawingState α) (h : s.history ≠ []) :
    (undo s).1.isSome = true ∧
    (redo (undo s).2).1 = (undo s).1 ∧
    (redo (undo s).2).2 = s := by
  obtain ⟨hist, r⟩ := s
  rcases List.eq_nil_or_concat' hist with rfl | ⟨l, e, rfl⟩
  · simp at h
  · simp [undo_of_ne_nil, redo_of_ne_nil]

/-- C3 witness: round trip on a concrete one-entry history. -/
theorem undo_redo_roundtrip_witness :
    (undo ({ history := [{ action := 1, timestamp := 2 }], redoStack := [] }
        : DrawingState Nat)).1.isSome = true ∧
    (redo (undo ({ history := [{ action := 1, timestamp := 2 }], redoStack := [] }
        : DrawingState Nat)).2).1
      = (undo ({ history := [{ action := 1, timestamp := 2 }], redoStack := [] }
        : DrawingState Nat)).1 ∧
    (redo (undo ({ history := [{ action := 1, timestamp := 2 }], redoStack := [] }
        : DrawingState Nat)).2).2
      = ({ history := [{ action := 1, timestamp := 2 }], redoStack := [] }
        : DrawingState Nat) :=
  undo_redo_roundtrip _ (by decide)

/-- C4: `undo` on an empty history returns `none` and changes nothing;
`redo` on an empty redo stack returns `none` and changes nothing. -/
theorem empty_stack_noop {α : Type} (s : DrawingState α) :
    (s.history = [] → undo s = (none, s)) ∧
    (s.redoStack = [] → redo s = (none, s)) := by
  obtain ⟨hist, r⟩ := s
  constructor
  · intro h
    cases hist with
    | nil => rfl
    | cons hd tl => exact absurd h (by simp)
  · intro h
    cases r with
    | nil => rfl
    | cons hd tl => exact absurd h (by simp)

/-- C4 witness: no-op behaviour on the empty initial state. -/
theorem empty_stack_noop_witness :
    undo (initDrawingState Nat) = (none, initDrawingState Nat) ∧
    redo (initDrawingState Nat) = (none, initDrawingState Nat) :=
  ⟨(empty_stack_noop (initDrawingState Nat)).1 rfl,
   (empty_stack_noop (initDrawingState Nat)).2 rfl⟩

/-- C5: `clearHistory` empties both stacks from any prior state, and an
`undo` issued immediately afterwards reports nothing to undo and changes
nothing (clear is not undoable). -/
theorem clearHistory_empties_both {α : Type} (s : DrawingState α) :
    (clearHistory s).history = [] ∧ (clearHistory s).redoStack = [] ∧
    undo (clearHistory s) = (none, clearHistory s) :=
  ⟨rfl, rfl, rfl⟩

/-- C9: in every state reachable from the initial empty state by `addAction`,
`undo`, `redo`, `clearHistory`, the combined size of history and redo stack is
at most 100 (so the redo stack also never exceeds 100); moreover `undo` and
`redo` preserve the combined size on every state. -/
theorem reachable_size_invariant {α : Type} (s : DrawingState α) (h : DSReachable s) :
    s.history.length + s.redoStack.length ≤ 100 ∧
    s.redoStack.length ≤ 100 ∧
    (∀ t : DrawingState α,
      (undo t).2.history.length + (undo t).2.redoStack.length
        = t.history.length + t.redoStack.length) ∧
    (∀ t : DrawingState α,
      (redo t).2.history.length + (redo t).2.redoStack.length
        = t.history.length + t.redoStack.length) := by
  refine ⟨dsreachable_sum_le s h, ?_, undo_sum, redo_sum⟩
  have := dsreachable_sum_le s h
  omega

/-- C9 witness: the invariant instantiated at the initial state. -/
theorem reachable_size_invariant_witness :
    (initDrawingState Nat).history.length + (initDrawingState Nat).redoStack.length ≤ 100 :=
  (reachable_size_invariant (initDrawingState Nat) DSReachable.init).1

/-!
Session registry: `RoomManager` from `src/server/rooms.js`.  The `users`
JavaScript `Map` is modelled as an insertion-ordered association list with
update-in-place semantics; the `usedColors` `Set` as a duplicate-free list
with append-if-absent semantics.  The `Math.random()*16777215` value feeding
the fallback color is an explicit `Nat` input, and `(n).toString(16)` is
modelled by `toHexChars` (lowercase hexadecimal digits, no leading zeros).
-/

/-- A registered user: `{ userId, name, color, connectedAt }`. -/
structure User where
  userId : String
  name : String
  color : String
  connectedAt : Nat
deriving DecidableEq

/-- `this.userColors`: the fixed 12-entry palette. -/
def userColors : List String :=
  ["#FF6B6B", "#4ECDC4", "#45B7D1", "#FFA07A",
   "#98D8C8", "#F7DC6F", "#BB8FCE", "#85C1E2",
   "#F8B739", "#52B788", "#E63946", "#A8DADC"]

/-- The mutable state of `RoomManager` (the embedded drawing state is kept
separately). -/
structure RoomState where
  users : List (String × User)
  usedColors : List String
  userCounter : Nat
deriving DecidableEq

/-- The constructor state of `RoomManager`. -/
def initRoom : RoomState :=
  { users := [], usedColors := [], userCounter := 1 }

/-- Lowercase hexadecimal digits of `n`, most significant first: the
JavaScript `(n).toString(16)` for a natural number. -/
def toHexChars (n : Nat) : List Char :=
  Nat.toDigits 16 n

/-- The fallback color: `'#' + Math.floor(Math.random()*16777215).toString(16)`
with the random draw `r` passed in explicitly. -/
def randomColor (r : Nat) : String :=
  String.mk ('#' :: toHexChars r)

/-- `getAvailableColor()`: first palette color not in `usedColors` (adding it
to the set), else a random fallback color (not added to the set). -/
def getAvailableColor (s : RoomState) (r : Nat) : String × RoomState :=
  match userColors.find? (fun c => !(s.usedColors.contains c)) with
  | some c => (c, { s with usedColors := s.usedColors ++ [c] })
  | none => (randomColor r, s)

/-- `Map.prototype.get`. -/
def mapGet (m : List (String × User)) (k : String) : Option User :=
  Option.map Prod.snd (m.find? (fun p => p.1 == k))

/-- `Map.prototype.set`: update in place if the key is present, else append. -/
def mapSet (m : List (String × User)) (k : String) (v : User) : List (String × User) :=
  if m.any (fun p => p.1 == k) then
    m.map (fun p => if p.1 == k then (k, v) else p)
  else
    m ++ [(k, v)]

/-- `addUser(socketId)`: assign a color and the next sequential name, store
the user under its socket id, and return it.  `r` is the random draw for the
fallback color, `now` the connection timestamp. -/
def addUser (s : RoomState) (socketId : String) (r : Nat) (now : Nat) : User × RoomState :=
  let cs := getAvailableColor s r
  let user : User :=
    { userId := socketId, name := "User " ++ toString cs.2.userCounter,
      color := cs.1, connectedAt := now }
  (user,
   { cs.2 with userCounter := cs.2.userCounter + 1,
               users := mapSet cs.2.users socketId user })

/-- `removeUser(socketId)`: if the id is registered, free its color and drop
the entry; otherwise do nothing. -/
def removeUser (s : RoomState) (socketId : String) : RoomState :=
  match mapGet s.users socketId with
  | none => s
  | some user =>
      { s with usedColors := s.usedColors.erase user.color,
               users := s.users.filter (fun p => p.1 != socketId) }

/-- `getUsers()` publishes `{userId, name, color}` triples. -/
structure PublicUser where
  userId : String
  name : String
  color : String
deriving DecidableEq

/-- `getUsers()`: the roster in insertion order. -/
def getUsers (s : RoomState) : List PublicUser :=
  s.users.map (fun p => { userId := p.2.userId, name := p.2.name, color := p.2.color })

/-- One session-registry call: a `register` (with its random draw and
timestamp) or an `unregister`. -/
inductive RoomOp where
  | add (socketId : String) (r : Nat) (now : Nat)
  | remove (socketId : String)

/-- Apply one call to the registry state. -/
def applyOp (s : RoomState) : RoomOp → RoomState
  | RoomOp.add sid r now => (addUser s sid r now).2
  | RoomOp.remove sid => removeUser s sid

/-- Apply a sequence of calls, oldest first. -/
def applyOps (s : RoomState) (ops : List RoomOp) : RoomState :=
  ops.foldl applyOp s

/-- Registry states reachable from the constructor state by call sequences
respecting the spec precondition that `register` is never called twice for
the same live connection. -/
inductive RoomReachable : RoomState → Prop
  | init : RoomReachable initRoom
  | add (s : RoomState) (sid : String) (r now : Nat) :
      RoomReachable s → mapGet s.users sid = none →
      RoomReachable (addUser s sid r now).2
  | remove (s : RoomState) (sid : String) :
      RoomReachable s → RoomReachable (removeUser s sid)

section RoomLemmas

/-- The sixteen lowercase hexadecimal digit characters. -/
def hexChars : List Char :=
  (List.range 16).map Nat.digitChar

lemma digitChar_mem_hexChars (n : Nat) (h : n < 16) : Nat.digitChar n ∈ hexChars := by
  unfold hexChars
  exact List.mem_map_of_mem _ (List.mem_range.mpr h)

lemma toDigitsCore_mem_hexChars (fuel : Nat) :
    ∀ (n : Nat) (acc : List Char), (∀ c ∈ acc, c ∈ hexChars) →
      ∀ c ∈ Nat.toDigitsCore 16 fuel n acc, c ∈ hexChars := by
  induction fuel with
  | zero =>
      intro n acc hacc c hc
      exact hacc c hc
  | succ fuel ih =>
      intro n acc hacc c hc
      simp only [Nat.toDigitsCore] at hc
      have hstep : ∀ x ∈ Nat.digitChar (n % 16) :: acc, x ∈ hexChars := by
        intro x hx
        rw [List.mem_cons] at hx
        rcases hx with rfl | hx
        · exact digitChar_mem_hexChars _ (Nat.mod_lt _ (by omega))
        · exact hacc x hx
      split at hc
      · exact hstep c hc
      · exact ih (n / 16) (Nat.digitChar (n % 16) :: acc) hstep c hc

lemma toHexChars_subset (n : Nat) : ∀ c ∈ toHexChars n, c ∈ hexChars :=
  toDigitsCore_mem_hexChars (n + 1) n [] (by simp)

lemma palette_has_marker :
    ∀ c ∈ userColors, ∃ ch ∈ c.data, ch ∉ hexChars ∧ ch ≠ '#' := by decide

/-- The fallback color can never collide with a palette color: palette colors
contain an uppercase letter, the fallback is `#` followed by lowercase hex. -/
lemma randomColor_not_palette (r : Nat) : randomColor r ∉ userColors := by
  intro hmem
  obtain ⟨ch, hch, hnothex, hnothash⟩ := palette_has_marker _ hmem
  have hdata : (randomColor r).data = '#' :: toHexChars r := rfl
  rw [hdata, List.mem_cons] at hch
  rcases hch with rfl | hch
  · exact hnothash rfl
  · exact hnothex (toHexChars_subset r ch hch)

lemma getAvailableColor_of_found (s : RoomState) (r : Nat) (c : String)
    (h : userColors.find? (fun x => !(s.usedColors.contains x)) = some c) :
    getAvailableColor s r = (c, { s with usedColors := s.usedColors ++ [c] }) := by
  unfold getAvailableColor
  rw [h]

lemma getAvailableColor_of_none (s : RoomState) (r : Nat)
    (h : userColors.find? (fun x => !(s.usedColors.contains x)) = none) :
    getAvailableColor s r = (randomColor r, s) := by
  unfold getAvailableColor
  rw [h]

lemma mapGet_none_forall (m : List (String × User)) (k : String)
    (h : mapGet m k = none) : ∀ p ∈ m, ¬((p.1 == k) = true) := by
  unfold mapGet at h
  rw [Option.map_eq_none'] at h
  rw [List.find?_eq_none] at h
  exact h

lemma mapSet_of_not_mem (m : List (String × User)) (k : String) (v : User)
    (h : mapGet m k = none) : mapSet m k v = m ++ [(k, v)] := by
  have hany : m.any (fun p => p.1 == k) = false := by
    rw [List.any_eq_false]
    exact mapGet_none_forall m k h
  unfold mapSet
  simp [hany]

lemma mem_mapSet (m : List (String × User)) (k : String) (v : User) (p : String × User)
    (hp : p ∈ mapSet m k v) : p = (k, v) ∨ p ∈ m := by
  unfold mapSet at hp
  split at hp
  · rw [List.mem_map] at hp
    obtain ⟨q, hq, hfq⟩ := hp
    by_cases hqk : (q.1 == k) = true
    · rw [if_pos hqk] at hfq
      exact Or.inl hfq.symm
    · rw [if_neg hqk] at hfq
      exact Or.inr (hfq ▸ hq)
  · rw [List.mem_append] at hp
    rcases hp with hp | hp
    · exact Or.inr hp
    · simp only [List.mem_singleton] at hp
      exact Or.inl hp

lemma mapGet_eq_some (m : List (String × User)) (k : String) (u : User)
    (h : mapGet m k = some u) :
    ∃ q ∈ m, q.1 = k ∧ q.2 = u := by
  unfold mapGet at h
  cases hf : m.find? (fun p => p.1 == k) with
  | none => rw [hf] at h; simp at h
  | some q =>
      rw [hf] at h
      simp only [Option.map_some'] at h
      have hq1 := List.find?_some hf
      exact ⟨q, List.mem_of_find?_eq_some hf, by simpa using hq1, by simpa using h⟩

lemma addUser_of_found (s : RoomState) (sid : String) (r now : Nat) (c : String)
    (hf : userColors.find? (fun x => !(s.usedColors.contains x)) = some c) :
    addUser s sid r now =
      ({ userId := sid, name := "User " ++ toString s.userCounter,
         color := c, connectedAt := now },
       { users := mapSet s.users sid
           { userId := sid, name := "User " ++ toString s.userCounter,
             color := c, connectedAt := now },
         usedColors := s.usedColors ++ [c],
         userCounter := s.userCounter + 1 }) := by
  unfold addUser
  rw [getAvailableColor_of_found s r c hf]

lemma addUser_of_none (s : RoomState) (sid : String) (r now : Nat)
    (hf : userColors.find? (fun x => !(s.usedColors.contains x)) = none) :
    addUser s sid r now =
      ({ userId := sid, name := "User " ++ toString s.userCounter,
         color := randomColor r, connectedAt := now },
       { users := mapSet s.users sid
           { userId := sid, name := "User " ++ toString s.userCounter,
             color := randomColor r, connectedAt := now },
         usedColors := s.usedColors,
         userCounter := s.userCounter + 1 }) := by
  unfold addUser
  rw [getAvailableColor_of_none s r hf]

lemma removeUser_of_none (s : RoomState) (sid : String)
    (h : mapGet s.users sid = none) : removeUser s sid = s := by
  unfold removeUser
  rw [h]

lemma removeUser_of_some (s : RoomState) (sid : String) (u : User)
    (h : mapGet s.users sid = some u) :
    removeUser s sid =
      { users := s.users.filter (fun p => p.1 != sid),
        usedColors := s.usedColors.erase u.color,
        userCounter := s.userCounter } := by
  unfold removeUser
  rw [h]

/-- The pairwise relation: two roster entries never share a palette color. -/
abbrev PaletteRel (p q : String × User) : Prop :=
  p.2.color ∈ userColors → q.2.color ∈ userColors → p.2.color ≠ q.2.color

lemma paletteRel_symm : Symmetric PaletteRel := by
  intro p q h hq hp
  exact Ne.symm (h hp hq)

/-- Inductive invariant of the session registry: roster keys are unique,
every live palette color is tracked in `usedColors`, live palette colors are
pairwise distinct, and `usedColors` is a duplicate-free subset of the
palette. -/
def RoomInv (s : RoomState) : Prop :=
  (s.users.map Prod.fst).Nodup ∧
  (∀ p ∈ s.users, p.2.color ∈ userColors → p.2.color ∈ s.usedColors) ∧
  s.users.Pairwise PaletteRel ∧
  s.usedColors ⊆ userColors ∧
  s.usedColors.Nodup

lemma roomInv_init : RoomInv initRoom := by
  refine ⟨?_, ?_, ?_, ?_, ?_⟩ <;> simp [initRoom]

lemma roomInv_addUser (s : RoomState) (sid : String) (r now : Nat)
    (hinv : RoomInv s) (hfresh : mapGet s.users sid = none) :
    RoomInv (addUser s sid r now).2 := by
  obtain ⟨hA, hB, hC, hD, hE⟩ := hinv
  have hsetv : ∀ v : User, mapSet s.users sid v = s.users ++ [(sid, v)] :=
    fun v => mapSet_of_not_mem s.users sid v hfresh
  have hfst : sid ∉ s.users.map Prod.fst := by
    intro hmem
    rw [List.mem_map] at hmem
    obtain ⟨p, hp, hp1⟩ := hmem
    exact mapGet_none_forall s.users sid hfresh p hp (by simp [hp1])
  cases hf : userColors.find? (fun x => !(s.usedColors.contains x)) with
  | some c =>
      have hcmem : c ∈ userColors := List.mem_of_find?_eq_some hf
      have hcnot : c ∉ s.usedColors := by
        have h1 := List.find?_some hf
        simpa using h1
      rw [addUser_of_found s sid r now c hf]
      dsimp only
      rw [hsetv]
      refine ⟨?_, ?_, ?_, ?_, ?_⟩
      · rw [List.map_append]
        rw [List.nodup_append]
        refine ⟨hA, by simp, ?_⟩
        intro a ha
        simp only [List.map_cons, List.map_nil, List.mem_singleton]
        intro hcontra
        rw [hcontra] at ha
        exact hfst ha
      · intro p hp hpal
        rw [List.mem_append] at hp
        rcases hp with hp | hp
        · exact List.mem_append_left _ (hB p hp hpal)
        · simp only [List.mem_singleton] at hp
          subst hp
          simp
      · rw [List.pairwise_append]
        refine ⟨hC, List.pairwise_singleton _ _, ?_⟩
        intro p hp q hq
        simp only [List.mem_singleton] at hq
        subst hq
        intro hpal _ hcontra
        have hmem := hB p hp hpal
        rw [hcontra] at hmem
        exact hcnot hmem
      · intro x hx
        rw [List.mem_append] at hx
        rcases hx with hx | hx
        · exact hD hx
        · simp only [List.mem_singleton] at hx
          subst hx
          exact hcmem
      · rw [List.nodup_append]
        refine ⟨hE, by simp, ?_⟩
        intro a ha
        simp only [List.mem_singleton]
        intro hcontra
        rw [hcontra] at ha
        exact hcnot ha
  | none =>
      have hrand : randomColor r ∉ userColors := randomColor_not_palette r
      rw [addUser_of_none s sid r now hf]
      dsimp only
      rw [hsetv]
      refine ⟨?_, ?_, ?_, hD, hE⟩
      · rw [List.map_append]
        rw [List.nodup_append]
        refine ⟨hA, by simp, ?_⟩
        intro a ha
        simp only [List.map_cons, List.map_nil, List.mem_singleton]
        intro hcontra
        rw [hcontra] at ha
        exact hfst ha
      · intro p hp hpal
        rw [List.mem_append] at hp
        rcases hp with hp | hp
        · exact hB p hp hpal
        · simp only [List.mem_singleton] at hp
          subst hp
          exact absurd hpal hrand
      · rw [List.pairwise_append]
        refine ⟨hC, List.pairwise_singleton _ _, ?_⟩
        intro p hp q hq
        simp only [List.mem_singleton] at hq
        subst hq
        intro _ hqpal
        exact absurd hqpal hrand

lemma roomInv_removeUser (s : RoomState) (sid : String) (hinv : RoomInv s) :
    RoomInv (removeUser s sid) := by
  obtain ⟨hA, hB, hC, hD, hE⟩ := hinv
  cases hg : mapGet s.users sid with
  | none =>
      rw [removeUser_of_none s sid hg]
      exact ⟨hA, hB, hC, hD, hE⟩
  | some u =>
      rw [removeUser_of_some s sid u hg]
      obtain ⟨q, hqmem, hq1, hq2⟩ := mapGet_eq_some s.users sid u hg
      refine ⟨?_, ?_, ?_, ?_, ?_⟩
      · exact hA.sublist (List.Sublist.map _ (List.filter_sublist _))
      · intro p hp hpal
        rw [List.mem_filter] at hp
        obtain ⟨hpmem, hpne⟩ := hp
        have hpmemused := hB p hpmem hpal
        by_cases hupal : u.color ∈ userColors
        · have hpq : p ≠ q := by
            intro hcontra
            rw [hcontra, hq1] at hpne
            simp at hpne
          have hrel := hC.forall paletteRel_symm hpmem hqmem hpq
          have hne : p.2.color ≠ u.color := by
            rw [← hq2]
            exact hrel hpal (by rw [hq2]; exact hupal)
          rw [List.mem_erase_of_ne hne]
          exact hpmemused
        · have hunotused : u.color ∉ s.usedColors := fun hmem => hupal (hD hmem)
          rw [List.erase_of_not_mem hunotused]
          exact hpmemused
      · exact hC.sublist (List.filter_sublist _)
      · intro x hx
        exact hD (List.erase_subset _ _ hx)
      · exact hE.erase _

lemma roomReachable_inv (s : RoomState) (h : RoomReachable s) : RoomInv s := by
  induction h with
  | init => exact roomInv_init
  | add s sid r now _ hfresh ih => exact roomInv_addUser s sid r now ih hfresh
  | remove s sid _ ih => exact roomInv_removeUser s sid ih

end RoomLemmas

/-- A concrete well-formed call trace: 14 registrations (the 13th and 14th
fall back to the same synthesized color `#ff`), then the first participant
leaves, freeing a palette color. -/
def badOps : List RoomOp :=
  [RoomOp.add "u1" 255 0, RoomOp.add "u2" 255 0, RoomOp.add "u3" 255 0,
   RoomOp.add "u4" 255 0, RoomOp.add "u5" 255 0, RoomOp.add "u6" 255 0,
   RoomOp.add "u7" 255 0, RoomOp.add "u8" 255 0, RoomOp.add "u9" 255 0,
   RoomOp.add "u10" 255 0, RoomOp.add "u11" 255 0, RoomOp.add "u12" 255 0,
   RoomOp.add "u13" 255 0, RoomOp.add "u14" 255 0,
   RoomOp.remove "u1"]

/-- The registry state after `badOps`. -/
def badRoom : RoomState := applyOps initRoom badOps

/-- C6 counterexample: in `badRoom` a palette color (`#FF6B6B`) is unused by
every live participant, yet two distinct live participants (`u13`, `u14`)
hold the same color (`#ff`), refuting the claimed invariant as stated. -/
theorem register_color_unique_cex :
    (∃ c ∈ userColors, ∀ p ∈ badRoom.users, p.2.color ≠ c) ∧
    (∃ p ∈ badRoom.users, ∃ q ∈ badRoom.users, p.1 ≠ q.1 ∧ p.2.color = q.2.color) := by
  decide

/-- C6 (amended): in every registry state reachable by well-formed
register/unregister sequences, two distinct live participants can share a
color only when that shared color is a synthesized fallback color, never a
palette color; and `register` always succeeds: it returns a participant
carrying the requested id, and when all 12 palette colors are in use the
participant receives the synthesized random color. -/
theorem palette_colors_unique (s : RoomState) (h : RoomReachable s) :
    (∀ p ∈ s.users, ∀ q ∈ s.users, p.1 ≠ q.1 → p.2.color = q.2.color →
        p.2.color ∉ userColors) ∧
    (∀ sid r now, (addUser s sid r now).1.userId = sid ∧
      ((∀ c ∈ userColors, c ∈ s.usedColors) →
        (addUser s sid r now).1.color = randomColor r)) := by
  obtain ⟨hA, hB, hC, hD, hE⟩ := roomReachable_inv s h
  constructor
  · intro p hp q hq hne hcolor hpal
    have hpq : p ≠ q := fun hcontra => hne (by rw [hcontra])
    have hrel := hC.forall paletteRel_symm hp hq hpq
    exact hrel hpal (hcolor ▸ hpal) hcolor
  · intro sid r now
    constructor
    · cases hf : userColors.find? (fun x => !(s.usedColors.contains x)) with
      | some c => rw [addUser_of_found s sid r now c hf]
      | none => rw [addUser_of_none s sid r now hf]
    · intro hall
      have hf : userColors.find? (fun x => !(s.usedColors.contains x)) = none := by
        rw [List.find?_eq_none]
        intro x hx
        simpa using hall x hx
      rw [addUser_of_none s sid r now hf]

/-- The registry after twelve well-formed registrations: the full palette is
in use. -/
def fullRoom : RoomState :=
  applyOps initRoom
    [RoomOp.add "u1" 0 0, RoomOp.add "u2" 0 0, RoomOp.add "u3" 0 0,
     RoomOp.add "u4" 0 0, RoomOp.add "u5" 0 0, RoomOp.add "u6" 0 0,
     RoomOp.add "u7" 0 0, RoomOp.add "u8" 0 0, RoomOp.add "u9" 0 0,
     RoomOp.add "u10" 0 0, RoomOp.add "u11" 0 0, RoomOp.add "u12" 0 0]

/-- C6 witness: the amended claim at the concrete 12-participant state; the
13th registration receives the synthesized fallback color. -/
theorem palette_colors_unique_witness :
    (∀ p ∈ fullRoom.users, ∀ q ∈ fullRoom.users, p.1 ≠ q.1 → p.2.color = q.2.color →
        p.2.color ∉ userColors) ∧
    (addUser fullRoom "u13" 255 0).1.color = randomColor 255 := by
  have h0 : RoomReachable initRoom := RoomReachable.init
  have h1 := RoomReachable.add _ "u1" 0 0 h0 (by decide)
  have h2 := RoomReachable.add _ "u2" 0 0 h1 (by decide)
  have h3 := RoomReachable.add _ "u3" 0 0 h2 (by decide)
  have h4 := RoomReachable.add _ "u4" 0 0 h3 (by decide)
  have h5 := RoomReachable.add _ "u5" 0 0 h4 (by decide)
  have h6 := RoomReachable.add _ "u6" 0 0 h5 (by decide)
  have h7 := RoomReachable.add _ "u7" 0 0 h6 (by decide)
  have h8 := RoomReachable.add _ "u8" 0 0 h7 (by decide)
  have h9 := RoomReachable.add _ "u9" 0 0 h8 (by decide)
  have h10 := RoomReachable.add _ "u10" 0 0 h9 (by decide)
  have h11 := RoomReachable.add _ "u11" 0 0 h10 (by decide)
  have h12 := RoomReachable.add _ "u12" 0 0 h11 (by decide)
  have hreach : RoomReachable fullRoom := h12
  have h := palette_colors_unique fullRoom hreach
  exact ⟨h.1, (h.2 "u13" 255 0).2 (by decide)⟩

lemma find?_filter_of_imp {β : Type} (l : List β) (p q : β → Bool)
    (h : ∀ x, p x = true → q x = true) :
    (l.filter q).find? p = l.find? p := by
  induction l with
  | nil => rfl
  | cons a t ih =>
      by_cases hqa : q a = true
      · rw [List.filter_cons_of_pos hqa]
        by_cases hpa : p a = true
        · rw [List.find?_cons_of_pos _ hpa, List.find?_cons_of_pos _ hpa]
        · rw [List.find?_cons_of_neg _ (by simpa using hpa),
              List.find?_cons_of_neg _ (by simpa using hpa)]
          exact ih
      · have hpa : ¬ p a = true := fun hp => hqa (h a hp)
        rw [List.filter_cons_of_neg (by simpa using hqa)]
        rw [List.find?_cons_of_neg _ (by simpa using hpa)]
        exact ih

/-- C7: `removeUser` with an unknown id is a silent no-op leaving the whole
state unchanged; with a registered id it removes exactly that entry (lookups
of every other id are unchanged), and returns that participant's color to the
pool: the new used-color set is the old one with that color erased. -/
theorem removeUser_spec (s : RoomState) (sid : String) :
    (mapGet s.users sid = none → removeUser s sid = s) ∧
    (∀ u : User, mapGet s.users sid = some u →
      mapGet (removeUser s sid).users sid = none ∧
      (∀ k, k ≠ sid → mapGet (removeUser s sid).users k = mapGet s.users k) ∧
      (removeUser s sid).usedColors = s.usedColors.erase u.color ∧
      (s.usedColors.Nodup → u.color ∉ (removeUser s sid).usedColors) ∧
      (∀ c, c ≠ u.color →
        (c ∈ (removeUser s sid).usedColors ↔ c ∈ s.usedColors))) := by
  constructor
  · exact removeUser_of_none s sid
  · intro u hu
    rw [removeUser_of_some s sid u hu]
    dsimp only
    refine ⟨?_, ?_, rfl, ?_, ?_⟩
    · unfold mapGet
      rw [Option.map_eq_none']
      rw [List.find?_eq_none]
      intro p hp
      rw [List.mem_filter] at hp
      simpa using hp.2
    · intro k hk
      unfold mapGet
      congr 1
      apply find?_filter_of_imp
      intro x hx
      have hxk : x.1 = k := by simpa using hx
      simpa [hxk] using hk
    · intro hnodup
      exact hnodup.not_mem_erase
    · intro c hc
      exact List.mem_erase_of_ne hc

/-- A registry with the single participant `a` (color `#FF6B6B`). -/
def oneRoom : RoomState := (addUser initRoom "a" 0 0).2

/-- C7 witness: no-op on the unknown id `b`; removal of the registered id `a`
erases its entry and frees its color. -/
theorem removeUser_spec_witness :
    removeUser oneRoom "b" = oneRoom ∧
    mapGet (removeUser oneRoom "a").users "a" = none ∧
    (removeUser oneRoom "a").usedColors =
      oneRoom.usedColors.erase
        (User.color { userId := "a", name := "User 1", color := "#FF6B6B", connectedAt := 0 }) := by
  have h1 := (removeUser_spec oneRoom "b").1 (by decide)
  have h2 := (removeUser_spec oneRoom "a").2
    { userId := "a", name := "User 1", color := "#FF6B6B", connectedAt := 0 } (by decide)
  exact ⟨h1, h2.1, h2.2.2.1⟩

lemma leaked_step (c : String) (hc : c ∈ userColors) (s : RoomState)
    (hin : c ∈ s.usedColors) (hnolive : ∀ p ∈ s.users, p.2.color ≠ c) (op : RoomOp) :
    c ∈ (applyOp s op).usedColors ∧ ∀ p ∈ (applyOp s op).users, p.2.color ≠ c := by
  cases op with
  | add sid r now =>
      simp only [applyOp]
      cases hf : userColors.find? (fun x => !(s.usedColors.contains x)) with
      | some c0 =>
          have hc0not : c0 ∉ s.usedColors := by
            have h1 := List.find?_some hf
            simpa using h1
          have hc0ne : c0 ≠ c := fun hcontra => hc0not (hcontra ▸ hin)
          rw [addUser_of_found s sid r now c0 hf]
          dsimp only
          refine ⟨List.mem_append_left _ hin, ?_⟩
          intro p hp
          rcases mem_mapSet s.users sid _ p hp with hp | hp
          · rw [hp]
            exact hc0ne
          · exact hnolive p hp
      | none =>
          have hrand : randomColor r ∉ userColors := randomColor_not_palette r
          have hrne : randomColor r ≠ c := fun hcontra => hrand (hcontra ▸ hc)
          rw [addUser_of_none s sid r now hf]
          dsimp only
          refine ⟨hin, ?_⟩
          intro p hp
          rcases mem_mapSet s.users sid _ p hp with hp | hp
          · rw [hp]
            exact hrne
          · exact hnolive p hp
  | remove sid =>
      simp only [applyOp]
      cases hg : mapGet s.users sid with
      | none =>
          rw [removeUser_of_none s sid hg]
          exact ⟨hin, hnolive⟩
      | some u =>
          obtain ⟨q, hqmem, hq1, hq2⟩ := mapGet_eq_some s.users sid u hg
          have hune : u.color ≠ c := by
            rw [← hq2]
            exact hnolive q hqmem
          rw [removeUser_of_some s sid u hg]
          dsimp only
          refine ⟨?_, ?_⟩
          · rw [List.mem_erase_of_ne (Ne.symm hune)]
            exact hin
          · intro p hp
            rw [List.mem_filter] at hp
            exact hnolive p hp.1

lemma leaked_persists (c : String) (hc : c ∈ userColors) :
    ∀ (ops : List RoomOp) (s : RoomState), c ∈ s.usedColors →
      (∀ p ∈ s.users, p.2.color ≠ c) → c ∈ (applyOps s ops).usedColors := by
  intro ops
  induction ops with
  | nil =>
      intro s hin _
      exact hin
  | cons op rest ih =>
      intro s hin hnolive
      have h := leaked_step c hc s hin hnolive op
      exact ih (applyOp s op) h.1 h.2

/-- The registry after `addUser("a")` is called twice without an intervening
`removeUser` (violating the spec precondition). -/
def dupRoom : RoomState := (addUser (addUser initRoom "a" 0 0).2 "a" 1 1).2

/-- C10: double registration of id `a` silently overwrites the first entry:
the roster holds exactly the second participant (name `User 2`, the second
palette color), while both palette colors stay marked used; unregistering `a`
then frees only the second color, and the first color `#FF6B6B` stays marked
used after every possible further call sequence — it never returns to the
pool. -/
theorem double_register_leaks_color :
    dupRoom.users =
      [("a", { userId := "a", name := "User 2", color := "#4ECDC4", connectedAt := 1 })] ∧
    dupRoom.usedColors = ["#FF6B6B", "#4ECDC4"] ∧
    (removeUser dupRoom "a").users = [] ∧
    (removeUser dupRoom "a").usedColors = ["#FF6B6B"] ∧
    (∀ ops : List RoomOp, "#FF6B6B" ∈ (applyOps dupRoom ops).usedColors) := by
  refine ⟨by decide, by decide, by decide, by decide, ?_⟩
  intro ops
  apply leaked_persists "#FF6B6B" (by decide) ops dupRoom (by decide)
  intro p hp
  rw [show dupRoom.users =
    [("a", { userId := "a", name := "User 2", color := "#4ECDC4", connectedAt := 1 })]
    from by decide] at hp
  simp only [List.mem_singleton] at hp
  rw [hp]
  decide

/-!
The join sequence of the socket connection handler (`io.on('connection')`,
`src/server/server.js` lines 25–47): register the user, emit `init` to the
joining socket, emit `redrawCanvas` to the joining socket only if the history
is non-empty, emit `historyUpdate` to the joining socket, and broadcast
`userList` to everyone.
-/

/-- The messages the join sequence can emit. -/
inductive ServerMsg (α : Type) where
  | initMsg (u : User)
  | redrawCanvas (history : List (HistEntry α))
  | historyUpdate (historyCount : Nat) (redoCount : Nat)
  | userList (users : List PublicUser)
deriving DecidableEq

/-- The connection handler's join sequence: returns the updated registry, the
messages emitted to the joining socket alone, and the messages broadcast to
all clients. -/
def onConnection {α : Type} (room : RoomState) (ds : DrawingState α)
    (socketId : String) (r : Nat) (now : Nat) :
    RoomState × List (ServerMsg α) × List (ServerMsg α) :=
  ((addUser room socketId r now).2,
   [ServerMsg.initMsg (addUser room socketId r now).1]
     ++ (if ds.history.length > 0 then [ServerMsg.redrawCanvas ds.history] else [])
     ++ [ServerMsg.historyUpdate (getHistoryLength ds) (getRedoLength ds)],
   [ServerMsg.userList (getUsers (addUser room socketId r now).2)])

/-- C8 counterexample: a join onto an empty canvas sends the joining socket
only `init` and `historyUpdate` — no `redrawCanvas` snapshot at all, refuting
the claim that a history snapshot is delivered even when the history is
empty. -/
theorem join_snapshot_cex :
    (onConnection initRoom (initDrawingState Nat) "s1" 0 0).2.1 =
      [ServerMsg.initMsg { userId := "s1", name := "User 1",
                           color := "#FF6B6B", connectedAt := 0 },
       ServerMsg.historyUpdate 0 0] ∧
    ¬ ∃ h : List (HistEntry Nat),
        ServerMsg.redrawCanvas h ∈ (onConnection initRoom (initDrawingState Nat) "s1" 0 0).2.1 := by
  refine ⟨by decide, ?_⟩
  rintro ⟨h, hmem⟩
  rw [show (onConnection initRoom (initDrawingState Nat) "s1" 0 0).2.1 =
      [ServerMsg.initMsg { userId := "s1", name := "User 1",
                           color := "#FF6B6B", connectedAt := 0 },
       ServerMsg.historyUpdate 0 0] from by decide] at hmem
  simp at hmem

/-- C8 (amended): on every join, the full-history `redrawCanvas` snapshot is
sent to the joining socket exactly when the history is non-empty (an empty
canvas sends no snapshot); the `historyUpdate` counts always go to the
joining socket; and the roster broadcast is exactly the `userList` message —
the snapshot is never broadcast. -/
theorem join_snapshot_spec {α : Type} (room : RoomState) (ds : DrawingState α)
    (sid : String) (r now : Nat) :
    (ds.history ≠ [] →
      ServerMsg.redrawCanvas ds.history ∈ (onConnection room ds sid r now).2.1) ∧
    (ds.history = [] →
      ∀ h : List (HistEntry α),
        ServerMsg.redrawCanvas h ∉ (onConnection room ds sid r now).2.1) ∧
    ServerMsg.historyUpdate ds.history.length ds.redoStack.length ∈
      (onConnection room ds sid r now).2.1 ∧
    (onConnection room ds sid r now).2.2 =
      [ServerMsg.userList (getUsers (addUser room sid r now).2)] ∧
    (∀ h : List (HistEntry α),
      ServerMsg.redrawCanvas h ∉ (onConnection room ds sid r now).2.2) := by
  refine ⟨?_, ?_, ?_, rfl, ?_⟩
  · intro hne
    have hpos : ds.history.length > 0 := List.length_pos.mpr hne
    simp only [onConnection, if_pos hpos]
    simp
  · intro hnil h
    simp only [onConnection, hnil]
    simp
  · rcases Nat.eq_zero_or_pos ds.history.length with hz | hpos
    · simp only [onConnection, hz]
      simp [getHistoryLength, getRedoLength, hz]
    · simp only [onConnection, if_pos hpos]
      simp [getHistoryLength, getRedoLength]
  · intro h
    simp only [onConnection]
    simp

/-- C8 witness: the snapshot arrives on a join with a one-entry history, and
never arrives on a join with an empty history. -/
theorem join_snapshot_spec_witness :
    ServerMsg.redrawCanvas [({ action := 1, timestamp := 2 } : HistEntry Nat)] ∈
      (onConnection initRoom
        ({ history := [{ action := 1, timestamp := 2 }], redoStack := [] } : DrawingState Nat)
        "s1" 0 0).2.1 ∧
    (∀ h : List (HistEntry Nat),
      ServerMsg.redrawCanvas h ∉
        (onConnection initRoom (initDrawingState Nat) "s2" 0 0).2.1) := by
  refine ⟨?_, ?_⟩
  · exact (join_snapshot_spec initRoom _ "s1" 0 0).1 (by decide)
  · exact (join_snapshot_spec initRoom (initDrawingState Nat) "s2" 0 0).2.1 rfl
